import Mathlib

/-!
Verification of the error-profile estimation engine in `iss/bam.py`
(InSilicoSeq).  The Python functions `get_mismatches`,
`subst_matrix_to_choices`, `indel_rate`, `quality_distribution` and
`get_insert_size` are embedded shallowly:

* a numpy float row becomes a `List ℚ`; numpy float division whose
  denominator is zero (which silently yields NaN for `0/0` and ±Inf
  otherwise) is modelled by `Option ℚ`, with `none` standing for every
  non-finite outcome;
* a Python `KeyError` aborts the embedded pass with `none`;
* a pysam `AlignedSegment` becomes an explicit record of exactly the
  fields the Python code reads.
-/

namespace Iss

/-- The fields of a pysam `AlignedSegment` that `bam.py` reads: the
flags, the template length, the quality scores, the query sequence, the
result of `get_aligned_pairs(matches_only=True, with_seq=True)` (query
position together with the case-annotated reference base; a lower-case
reference base marks a substitution) and `cigartuples`. -/
structure BamRead where
  is_unmapped : Bool
  is_read1 : Bool
  is_read2 : Bool
  is_proper_pair : Bool
  template_length : Int
  query_qualities : List ℚ
  seq : List Char
  aligned_pairs : List (Nat × Char)
  cigartuples : List (Nat × Nat)
deriving DecidableEq

/-- `dispatch_dict` of `get_mismatches` (src/iss/bam.py lines 27-44):
the 16 match/substitution keys and their column indices in the 24-column
position-count matrices.  There are no entries for any indel key. -/
def dispatch_dict : List (String × Nat) :=
  [(("AA"), 0), (("aT"), 1), (("aG"), 2), (("aC"), 3),
   (("TT"), 4), (("tA"), 5), (("tG"), 6), (("tC"), 7),
   (("CC"), 8), (("cA"), 9), (("cT"), 10), (("cG"), 11),
   (("GG"), 12), (("gA"), 13), (("gT"), 14), (("gC"), 15)]

/-- Python `dispatch_dict[k]`; `none` models the `KeyError` raised when
`k` is not among the 16 keys. -/
def dispatch (k : String) : Option Nat :=
  dispatch_dict.lookup k

/-- The key built by the cigar sub-pass for an indel event:
`ref_base.upper() + '1'` for an insertion, `ref_base.upper() + '2'` for
a deletion (src/iss/bam.py lines 84 and 95). -/
def indel_key (ref_base : Char) (marker : Char) : String :=
  String.mk [ref_base.toUpper, marker]

/-- The eight indel keys the cigar sub-pass can construct. -/
def indel_keys : List String :=
  [("A1"), ("A2"), ("T1"), ("T2"), ("C1"), ("C2"), ("G1"), ("G2")]

/-- The cigar sub-pass of `get_mismatches` (src/iss/bam.py lines
78-106), entered for a read flagged `has_indels`.  `ref_base` is the
variable left in scope by the alignment loop, i.e. the last observed
reference base.  The accumulators record the `(position, column)` cells
incremented in `array_f` and `array_r`; a match advances the running
position by its length, an insertion or deletion tallies one cell and
advances the position, any other operation only prints an error.  The
result is `none` when `dispatch_dict[dispatch_key]` raises `KeyError`. -/
def cigar_indel_aux (is_read1 is_read2 : Bool) (ref_base : Char) :
    List (Nat × Nat) → Nat → List (Nat × Nat) → List (Nat × Nat) →
    Option (List (Nat × Nat) × List (Nat × Nat))
  | [], _, acc_f, acc_r => some (acc_f, acc_r)
  | (cigar_type, cigar_length) :: rest, pos, acc_f, acc_r =>
    if cigar_type == 0 then
      cigar_indel_aux is_read1 is_read2 ref_base rest (pos + cigar_length) acc_f acc_r
    else if cigar_type == 1 then
      if is_read1 then
        match dispatch (indel_key ref_base ('1')) with
        | none => none
        | some col =>
          cigar_indel_aux is_read1 is_read2 ref_base rest (pos + cigar_length)
            (acc_f ++ [(pos, col)]) acc_r
      else if is_read2 then
        match dispatch (indel_key ref_base ('1')) with
        | none => none
        | some col =>
          cigar_indel_aux is_read1 is_read2 ref_base rest (pos + cigar_length)
            acc_f (acc_r ++ [(pos, col)])
      else
        cigar_indel_aux is_read1 is_read2 ref_base rest (pos + cigar_length) acc_f acc_r
    else if cigar_type == 2 then
      if is_read1 then
        match dispatch (indel_key ref_base ('2')) with
        | none => none
        | some col =>
          cigar_indel_aux is_read1 is_read2 ref_base rest (pos + cigar_length)
            (acc_f ++ [(pos, col)]) acc_r
      else if is_read2 then
        match dispatch (indel_key ref_base ('2')) with
        | none => none
        | some col =>
          cigar_indel_aux is_read1 is_read2 ref_base rest (pos + cigar_length)
            acc_f (acc_r ++ [(pos, col)])
      else
        cigar_indel_aux is_read1 is_read2 ref_base rest (pos + cigar_length) acc_f acc_r
    else
      cigar_indel_aux is_read1 is_read2 ref_base rest pos acc_f acc_r

/-- The cigar sub-pass started at position 0 with empty accumulators. -/
def cigar_indel_pass (is_read1 is_read2 : Bool) (ref_base : Char)
    (cigar : List (Nat × Nat)) : Option (List (Nat × Nat) × List (Nat × Nat)) :=
  cigar_indel_aux is_read1 is_read2 ref_base cigar 0 [] []

/-- C1: the claim states that the dispatch mapping is defined on every
indel key the counting pass constructs, so that each insertion/deletion
cigar operation increments one of the 8 dedicated indel cells.  The code
refutes this: `dispatch_dict` contains none of the eight indel keys, so
the cigar sub-pass of `get_mismatches` aborts with a `KeyError` (modelled
`none`) on the first indel operation.  Concretely, a first-mate read
whose last aligned reference base is `A` and whose cigar is
match(10), insertion(2), match(8) crashes instead of incrementing an
indel cell. -/
theorem c1_indel_dispatch_undefined :
    cigar_indel_pass true false ('A') [(0, 10), (1, 2), (0, 8)] = none ∧
    (indel_keys.all (fun k => (dispatch k).isNone)) = true := by
  decide

/-- Float division as performed by numpy on a row of counts: with a zero
denominator the float result is NaN (for `0/0`) or ±Inf, both modelled
`none`; otherwise the exact rational quotient. -/
def pydiv (a b : ℚ) : Option ℚ :=
  if b = 0 then none else some (a / b)

/-- Python slice `l[i:j]`. -/
def npslice (l : List ℚ) (i j : Nat) : List ℚ :=
  (l.take j).drop i

/-- `np.sum` of a row slice. -/
def npsum (l : List ℚ) : ℚ :=
  l.sum

/-- Float addition over values that may be NaN/Inf: any non-finite
summand makes the result non-finite. -/
def oadd (a b : Option ℚ) : Option ℚ :=
  match a, b with
  | some x, some y => some (x + y)
  | _, _ => none

/-- Float summation over entries that may be NaN/Inf. -/
def osum : List (Option ℚ) → Option ℚ
  | [] => some 0
  | o :: rest => oadd o (osum rest)

/-- A Python dict keyed by the four nucleotides `'A','T','C','G'`. -/
structure BaseMap (α : Type) where
  A : α
  T : α
  C : α
  G : α
deriving DecidableEq

/-- The `sums` dict of `subst_matrix_to_choices` (src/iss/bam.py lines
120-125): per reference base the sum of a slice of the 24-cell row,
namely `[1:4]`, `[5:8]`, `[9:12]` and `[13:]`. -/
def subst_sums (m : List ℚ) : BaseMap ℚ :=
  ⟨npsum (npslice m 1 4), npsum (npslice m 5 8),
   npsum (npslice m 9 12), npsum (m.drop 13)⟩

/-- `subst_matrix_to_choices` (src/iss/bam.py lines 117-144): per
reference base, the list of the 3 other nucleotides paired with the
slice `[1:4]` / `[5:8]` / `[9:12]` / `[13:]` of the row, each cell
divided by the corresponding entry of `sums`. -/
def subst_matrix_to_choices (m : List ℚ) :
    BaseMap (List Char × List (Option ℚ)) :=
  ⟨([('T'), ('C'), ('G')], (npslice m 1 4).map (fun c => pydiv c (subst_sums m).A)),
   ([('A'), ('C'), ('G')], (npslice m 5 8).map (fun c => pydiv c (subst_sums m).T)),
   ([('A'), ('T'), ('G')], (npslice m 9 12).map (fun c => pydiv c (subst_sums m).C)),
   ([('A'), ('T'), ('C')], (m.drop 13).map (fun c => pydiv c (subst_sums m).G))⟩

/-- The `sums` dict of `indel_rate` (src/iss/bam.py lines 150-155): per
reference base the sum of the slice `[0:4]`, `[6:10]`, `[12:16]` or
`[18:22]` of the row. -/
def indel_sums (m : List ℚ) : BaseMap ℚ :=
  ⟨npsum (npslice m 0 4), npsum (npslice m 6 10),
   npsum (npslice m 12 16), npsum (npslice m 18 22)⟩

/-- `indel_rate` (src/iss/bam.py lines 147-174): per reference base, the
markers `'1','2'` paired with the slice `[4:6]` / `[10:12]` / `[16:18]`
/ `[22:]` of the row, each cell divided by the corresponding entry of
`sums`. -/
def indel_rate (m : List ℚ) : BaseMap (List Char × List (Option ℚ)) :=
  ⟨([('1'), ('2')], (npslice m 4 6).map (fun c => pydiv c (indel_sums m).A)),
   ([('1'), ('2')], (npslice m 10 12).map (fun c => pydiv c (indel_sums m).T)),
   ([('1'), ('2')], (npslice m 16 18).map (fun c => pydiv c (indel_sums m).C)),
   ([('1'), ('2')], (m.drop 22).map (fun c => pydiv c (indel_sums m).G))⟩

/-- A 24-cell row whose only non-zero cell is column 4, the
`dispatch_dict` slot of the `TT` match: seven reads matched a reference
`T` at this position. -/
def row_c2 : List ℚ :=
  [0, 0, 0, 0, 7, 0, 0, 0, 0, 0, 0, 0, 0, 0, 0, 0, 0, 0, 0, 0, 0, 0, 0, 0]

/-- C2: the claim states that the indel-rate denominator for reference
base `T` is the sum of the 4 substitution-block cells of `T`'s block in
the layout fixed by `dispatch_dict`, i.e. cells 4..7.  The code refutes
this: on a row whose cells 4..7 sum to 7 (seven `TT` matches),
`indel_rate` computes the `T` denominator from cells 6..9 instead,
obtaining 0, and then divides the cells 10 and 11 by it, producing NaN
(`none`) twice. -/
theorem c2_indel_denominator_mismatch :
    npsum (npslice row_c2 4 8) = 7 ∧
    (indel_sums row_c2).T = 0 ∧
    (indel_rate row_c2).T.2 = [none, none] := by
  refine ⟨?_, ?_, ?_⟩ <;>
    norm_num [row_c2, npsum, npslice, indel_sums, indel_rate, pydiv]

/-- A 24-cell row with cell 13 (`gA` in `dispatch_dict`) equal to 1 and
cell 20 (inside the indel region of the layout) equal to 2. -/
def row_c5 : List ℚ :=
  [0, 0, 0, 0, 0, 0, 0, 0, 0, 0, 0, 0, 0, 1, 0, 0, 0, 0, 0, 0, 2, 0, 0, 0]

/-- C5: the claim states that every substitution-choice record pairs the
3 alternative bases with a probability vector of exactly 3 entries, each
a cell of that base's substitution block divided by the sum of those 3
cells.  The code refutes this for reference base `G`: the slice `[13:]`
runs to the end of the 24-cell row, so the `G` record pairs the 3 bases
`A,T,C` with an 11-entry vector, and its denominator (3 here) includes
cell 20, which lies outside the 3 `G`-substitution cells 13..15. -/
theorem c5_g_vector_has_eleven_entries :
    (subst_matrix_to_choices row_c5).G.1 = [('A'), ('T'), ('C')] ∧
    (subst_matrix_to_choices row_c5).G.2.length = 11 ∧
    (subst_sums row_c5).G = 3 ∧
    npsum (npslice row_c5 13 16) = 1 := by
  refine ⟨?_, ?_, ?_, ?_⟩ <;>
    norm_num [row_c5, npsum, npslice, subst_sums, subst_matrix_to_choices, pydiv]

/-- Summing the NaN-aware quotients of the cells of `l` by a non-zero
denominator `s` gives the exact quotient of the slice total by `s`. -/
theorem osum_map_pydiv (l : List ℚ) (s : ℚ) (hs : s ≠ 0) :
    osum (l.map (fun c => pydiv c s)) = some (l.sum / s) := by
  induction l with
  | nil => simp [osum]
  | cons a t ih =>
    rw [List.map_cons, osum, ih]
    simp [oadd, pydiv, hs, add_div]

/-- C6: for every position-count row and every reference base whose
substitution denominator is non-zero, the probability vector produced by
`subst_matrix_to_choices` sums to exactly 1 over ℚ (hence within any
floating-point tolerance).  This includes `G`, whose vector has 11
entries: those entries still sum to the `G` denominator. -/
theorem c6_subst_vector_sums_to_one (m : List ℚ) :
    ((subst_sums m).A ≠ 0 → osum (subst_matrix_to_choices m).A.2 = some 1) ∧
    ((subst_sums m).T ≠ 0 → osum (subst_matrix_to_choices m).T.2 = some 1) ∧
    ((subst_sums m).C ≠ 0 → osum (subst_matrix_to_choices m).C.2 = some 1) ∧
    ((subst_sums m).G ≠ 0 → osum (subst_matrix_to_choices m).G.2 = some 1) := by
  refine ⟨fun h => ?_, fun h => ?_, fun h => ?_, fun h => ?_⟩
  · show osum ((npslice m 1 4).map (fun c => pydiv c (subst_sums m).A)) = some 1
    rw [osum_map_pydiv _ _ h]
    exact congrArg some (div_self h)
  · show osum ((npslice m 5 8).map (fun c => pydiv c (subst_sums m).T)) = some 1
    rw [osum_map_pydiv _ _ h]
    exact congrArg some (div_self h)
  · show osum ((npslice m 9 12).map (fun c => pydiv c (subst_sums m).C)) = some 1
    rw [osum_map_pydiv _ _ h]
    exact congrArg some (div_self h)
  · show osum ((m.drop 13).map (fun c => pydiv c (subst_sums m).G)) = some 1
    rw [osum_map_pydiv _ _ h]
    exact congrArg some (div_self h)

/-- A 24-cell row with one `A`-block count (cell 1), one `T`-block count
(cell 5), one `C`-block count (cell 9) and one `G`-block count
(cell 13), so that all four substitution denominators are non-zero. -/
def row_c6 : List ℚ :=
  [0, 1, 0, 0, 0, 2, 0, 0, 0, 3, 0, 0, 0, 4, 0, 0, 0, 0, 0, 0, 0, 0, 0, 0]

/-- Witness for C6 at a concrete row with non-zero denominators. -/
theorem c6_witness :
    osum (subst_matrix_to_choices row_c6).A.2 = some 1 ∧
    osum (subst_matrix_to_choices row_c6).T.2 = some 1 ∧
    osum (subst_matrix_to_choices row_c6).C.2 = some 1 ∧
    osum (subst_matrix_to_choices row_c6).G.2 = some 1 := by
  have h := c6_subst_vector_sums_to_one row_c6
  refine ⟨h.1 ?_, h.2.1 ?_, h.2.2.1 ?_, h.2.2.2 ?_⟩ <;>
    norm_num [row_c6, subst_sums, npsum, npslice]

/-- Dividing by a denominator that is zero yields NaN (`none`) at every
entry of the mapped slice. -/
theorem map_pydiv_zero_mem (l : List ℚ) (s : ℚ) (hs : s = 0) :
    ∀ o ∈ l.map (fun c => pydiv c s), o = none := by
  subst hs
  intro o ho
  rcases List.mem_map.mp ho with ⟨c, _, rfl⟩
  simp [pydiv]

/-- C9 (amended): neither builder checks for a zero denominator; both
perform the division regardless, and with a zero denominator every
affected entry is the non-finite float outcome NaN/Inf (`none`), which
propagates to the caller (and the persisted artifact) silently. -/
theorem c9_zero_denominator_divides_to_nan (m : List ℚ) :
    ((subst_sums m).A = 0 → ∀ o ∈ (subst_matrix_to_choices m).A.2, o = none) ∧
    ((subst_sums m).T = 0 → ∀ o ∈ (subst_matrix_to_choices m).T.2, o = none) ∧
    ((subst_sums m).C = 0 → ∀ o ∈ (subst_matrix_to_choices m).C.2, o = none) ∧
    ((subst_sums m).G = 0 → ∀ o ∈ (subst_matrix_to_choices m).G.2, o = none) ∧
    ((indel_sums m).A = 0 → ∀ o ∈ (indel_rate m).A.2, o = none) ∧
    ((indel_sums m).T = 0 → ∀ o ∈ (indel_rate m).T.2, o = none) ∧
    ((indel_sums m).C = 0 → ∀ o ∈ (indel_rate m).C.2, o = none) ∧
    ((indel_sums m).G = 0 → ∀ o ∈ (indel_rate m).G.2, o = none) :=
  ⟨fun h => map_pydiv_zero_mem _ _ h, fun h => map_pydiv_zero_mem _ _ h,
   fun h => map_pydiv_zero_mem _ _ h, fun h => map_pydiv_zero_mem _ _ h,
   fun h => map_pydiv_zero_mem _ _ h, fun h => map_pydiv_zero_mem _ _ h,
   fun h => map_pydiv_zero_mem _ _ h, fun h => map_pydiv_zero_mem _ _ h⟩

/-- The all-zero 24-cell row: no read ever covered this position. -/
def zero_row : List ℚ :=
  [0, 0, 0, 0, 0, 0, 0, 0, 0, 0, 0, 0, 0, 0, 0, 0, 0, 0, 0, 0, 0, 0, 0, 0]

/-- C9 counterexample: the claim states that on a zero denominator the
builders return a sentinel without performing a division by zero, so
that no NaN/Inf reaches the artifact.  On the all-zero row both builders
do divide by the zero denominator and every probability entry of the
output is NaN (`none`), which flows on silently. -/
theorem c9_nan_reaches_output :
    (subst_sums zero_row).A = 0 ∧
    (subst_matrix_to_choices zero_row).A.2 = [none, none, none] ∧
    (indel_sums zero_row).G = 0 ∧
    (indel_rate zero_row).G.2 = [none, none] := by
  refine ⟨?_, ?_, ?_, ?_⟩ <;>
    norm_num [zero_row, subst_sums, npsum, npslice, subst_matrix_to_choices,
      indel_sums, indel_rate, pydiv]

/-- Witness for the amended C9 at the all-zero row: the first `A`-vector
entry of the substitution builder is NaN. -/
theorem c9_witness :
    (subst_matrix_to_choices zero_row).A.2.headD (some 0) = none :=
  (c9_zero_denominator_divides_to_nan zero_row).1
    (by norm_num [zero_row, subst_sums, npsum, npslice]) _
    (by norm_num [zero_row, subst_matrix_to_choices, subst_sums, npsum, npslice, pydiv])

/-- Every element of a Python slice of `m` is an element of `m`. -/
theorem mem_of_mem_npslice (m : List ℚ) (i j : Nat) (x : ℚ)
    (hx : x ∈ npslice m i j) : x ∈ m :=
  List.mem_of_mem_take (List.mem_of_mem_drop hx)

/-- NaN-aware quotients of non-negative cells by the sum of non-negative
cells are non-negative (with NaN read as 0). -/
theorem pydiv_map_nonneg (m num den : List ℚ) (hm : ∀ x ∈ m, 0 ≤ x)
    (hnum : ∀ x ∈ num, x ∈ m) (hden : ∀ x ∈ den, x ∈ m) :
    ∀ o ∈ num.map (fun c => pydiv c den.sum), 0 ≤ o.getD 0 := by
  intro o ho
  rcases List.mem_map.mp ho with ⟨c, hc, rfl⟩
  by_cases h : den.sum = 0
  · simp [pydiv, h]
  · have hs : 0 ≤ den.sum := List.sum_nonneg (fun x hx => hm x (hden x hx))
    have hc0 : 0 ≤ c := hm c (hnum c hc)
    simp only [pydiv, if_neg h, Option.getD_some]
    exact div_nonneg hc0 hs

/-- A 24-cell row with one `AA` match (cell 0) and two `TT` matches
(cell 4). -/
def row_c4 : List ℚ :=
  [1, 0, 0, 0, 2, 0, 0, 0, 0, 0, 0, 0, 0, 0, 0, 0, 0, 0, 0, 0, 0, 0, 0, 0]

/-- C4 counterexample: the claim states that with a non-zero denominator
each indel-rate component lies in [0,1] and the two components sum to at
most 1.  On a non-negative row with cell 0 = 1 and cell 4 = 2 the `A`
denominator is 1 (non-zero) yet the first component is 2 > 1, because
the divided cells 4 and 5 are not among the four summed cells 0..3. -/
theorem c4_component_exceeds_one :
    (indel_sums row_c4).A = 1 ∧
    (indel_rate row_c4).A.2 = [some 2, some 0] ∧
    ¬((2 : ℚ) ≤ 1) := by
  refine ⟨?_, ?_, by norm_num⟩ <;>
    norm_num [row_c4, indel_sums, indel_rate, npsum, npslice, pydiv]

/-- C4 (amended): on a non-negative row each indel-rate component is
non-negative (reading the NaN of a zero denominator as 0), but nothing
bounds a component by 1 nor the component sum by 1, since the divided
cells lie outside the summed denominator block. -/
theorem c4_indel_rate_nonneg (m : List ℚ) (hm : ∀ x ∈ m, 0 ≤ x) :
    (∀ o ∈ (indel_rate m).A.2, 0 ≤ o.getD 0) ∧
    (∀ o ∈ (indel_rate m).T.2, 0 ≤ o.getD 0) ∧
    (∀ o ∈ (indel_rate m).C.2, 0 ≤ o.getD 0) ∧
    (∀ o ∈ (indel_rate m).G.2, 0 ≤ o.getD 0) := by
  refine ⟨?_, ?_, ?_, ?_⟩
  · exact pydiv_map_nonneg m (npslice m 4 6) (npslice m 0 4) hm
      (fun x hx => mem_of_mem_npslice m 4 6 x hx)
      (fun x hx => mem_of_mem_npslice m 0 4 x hx)
  · exact pydiv_map_nonneg m (npslice m 10 12) (npslice m 6 10) hm
      (fun x hx => mem_of_mem_npslice m 10 12 x hx)
      (fun x hx => mem_of_mem_npslice m 6 10 x hx)
  · exact pydiv_map_nonneg m (npslice m 16 18) (npslice m 12 16) hm
      (fun x hx => mem_of_mem_npslice m 16 18 x hx)
      (fun x hx => mem_of_mem_npslice m 12 16 x hx)
  · exact pydiv_map_nonneg m (m.drop 22) (npslice m 18 22) hm
      (fun x hx => List.mem_of_mem_drop hx)
      (fun x hx => mem_of_mem_npslice m 18 22 x hx)

/-- Witness for the amended C4: the over-1 component of the
counterexample row is still non-negative. -/
theorem c4_witness :
    0 ≤ ((indel_rate row_c4).A.2.headD none).getD 0 :=
  (c4_indel_rate_nonneg row_c4 (by norm_num [row_c4])).1 _
    (by norm_num [row_c4, indel_rate, indel_sums, npsum, npslice, pydiv])

/-- `np.mean`: the arithmetic mean; the mean of an empty collection is
the non-finite NaN, modelled `none`. -/
def npmean (l : List ℚ) : Option ℚ :=
  if l = [] then none else some (l.sum / (l.length : ℚ))

/-- Python `int()` applied to a float: truncation toward zero. -/
def pyint (q : ℚ) : Int :=
  if 0 ≤ q then ⌊q⌋ else ⌈q⌉

/-- The comprehension filter of `get_insert_size` (src/iss/bam.py lines
252-254): reads that are mapped and flagged as properly paired. -/
def qualifying_pairs (reads : List BamRead) : List BamRead :=
  reads.filter (fun r => !r.is_unmapped && r.is_proper_pair)

/-- `get_insert_size` (src/iss/bam.py lines 243-256): the list of
`abs(read.template_length)` over qualifying reads (already cast to the
float domain, as `np.mean` does), its mean, and `int()` of the result.
`int(nan)` raises `ValueError`, modelled by propagating `none`. -/
def get_insert_size (reads : List BamRead) : Option Int :=
  (npmean ((qualifying_pairs reads).map
    (fun r => ((|r.template_length| : ℤ) : ℚ)))).map pyint

/-- A mapped, properly-paired read with the given template length. -/
def pair_read (t : Int) : BamRead :=
  ⟨false, false, false, true, t, [], [], [], []⟩

/-- A mapped read that is not flagged as properly paired. -/
def unpaired_read (t : Int) : BamRead :=
  ⟨false, false, false, false, t, [], [], [], []⟩

/-- Three qualifying reads with template lengths 100, 101, 101. -/
def reads_c7 : List BamRead :=
  [pair_read 100, pair_read 101, pair_read 101]

/-- C7 counterexample: the claim states that the mean of the absolute
template lengths is rounded to the nearest integer.  For template
lengths 100, 101, 101 the mean is 302/3 ≈ 100.67, whose nearest integer
is 101, yet `get_insert_size` returns 100 because Python `int()`
truncates toward zero. -/
theorem c7_truncates_not_rounds :
    get_insert_size reads_c7 = some 100 ∧ round ((302 : ℚ) / 3) = 101 := by
  constructor
  · have h1 : (qualifying_pairs reads_c7).map
        (fun r => ((|r.template_length| : ℤ) : ℚ)) = [100, 101, 101] := by
      norm_num [reads_c7, pair_read, qualifying_pairs]
    have h2 : npmean [100, 101, 101] = some (302 / 3) := by
      simp only [npmean]
      rw [if_neg (List.cons_ne_nil _ _)]
      norm_num
    simp only [get_insert_size]
    rw [h1, h2, Option.map_some']
    norm_num [pyint]
  · norm_num [round_eq]

/-- C7 (amended): for a non-empty qualifying set, `get_insert_size`
returns the arithmetic mean of the absolute template lengths truncated
toward zero, i.e. its floor (the mean of absolute values being
non-negative); the example mean 150 of [100, 150, 200] is unaffected
since it is an integer. -/
theorem c7_mean_truncated (reads : List BamRead)
    (h : qualifying_pairs reads ≠ []) :
    get_insert_size reads =
      some ⌊((qualifying_pairs reads).map
              (fun r => ((|r.template_length| : ℤ) : ℚ))).sum /
            (((qualifying_pairs reads).map
              (fun r => ((|r.template_length| : ℤ) : ℚ))).length : ℚ)⌋ := by
  have hmapne :
      (qualifying_pairs reads).map (fun r => ((|r.template_length| : ℤ) : ℚ)) ≠ [] := by
    simpa using h
  have hsum : (0 : ℚ) ≤
      ((qualifying_pairs reads).map (fun r => ((|r.template_length| : ℤ) : ℚ))).sum := by
    refine List.sum_nonneg ?_
    intro x hx
    rcases List.mem_map.mp hx with ⟨r, _, rfl⟩
    exact_mod_cast abs_nonneg r.template_length
  have hq : (0 : ℚ) ≤
      ((qualifying_pairs reads).map (fun r => ((|r.template_length| : ℤ) : ℚ))).sum /
      (((qualifying_pairs reads).map
        (fun r => ((|r.template_length| : ℤ) : ℚ))).length : ℚ) :=
    div_nonneg hsum (Nat.cast_nonneg _)
  rw [get_insert_size, npmean, if_neg hmapne]
  simp only [Option.map_some', pyint, if_pos hq]

/-- Qualifying reads with template lengths 100, 150, 200 (the third of
them negative, exercising `abs`) plus one non-qualifying read. -/
def reads_c7w : List BamRead :=
  [pair_read 100, pair_read 150, pair_read (-200), unpaired_read 999]

/-- Witness for the amended C7: [100, 150, 200] plus one non-qualifying
read give exactly 150. -/
theorem c7_witness : get_insert_size reads_c7w = some 150 := by
  have h := c7_mean_truncated reads_c7w
    (by simp [reads_c7w, qualifying_pairs, pair_read, unpaired_read])
  rw [h]
  norm_num [reads_c7w, qualifying_pairs, pair_read, unpaired_read]

/-- State of the per-base alignment loop of `get_mismatches`: the
`has_indels` flag and the cells incremented so far in `array_f` and
`array_r`, recorded as `(query position, column)` pairs. -/
structure SubLoopState where
  has_indels : Bool
  inc_f : List (Nat × Nat)
  inc_r : List (Nat × Nat)
deriving DecidableEq

/-- The `has_indels` update of one loop iteration (src/iss/bam.py lines
64-67): the flag is raised when the query base differs case-insensitively
from the reference base while the reference annotation is upper-case. -/
def flag_update (r : BamRead) (st : SubLoopState) (query_pos : Nat)
    (ref_base : Char) : SubLoopState :=
  if ((r.seq.getD query_pos ('N')).toLower != ref_base.toLower) && ref_base.isUpper then
    { st with has_indels := true }
  else st

/-- One iteration of the alignment loop of `get_mismatches`
(src/iss/bam.py lines 58-75) on the aligned pair
`(query_pos, ref_base)`: `N` query bases are skipped entirely; otherwise
the flag is updated first and the `dispatch_dict` cell for
`ref_base + query_base` is incremented in `array_f` (first mate) or
`array_r` (second mate) only while the updated flag is still false.
`none` models the `KeyError` of a dispatch key absent from the dict. -/
def sub_step (r : BamRead) (st : SubLoopState) (b : Nat × Char) :
    Option SubLoopState :=
  if r.seq.getD b.1 ('N') != ('N') then
    if r.is_read1 && !(flag_update r st b.1 b.2).has_indels then
      (dispatch (String.mk [b.2, r.seq.getD b.1 ('N')])).map
        (fun col => { flag_update r st b.1 b.2 with
          inc_f := (flag_update r st b.1 b.2).inc_f ++ [(b.1, col)] })
    else if r.is_read2 && !(flag_update r st b.1 b.2).has_indels then
      (dispatch (String.mk [b.2, r.seq.getD b.1 ('N')])).map
        (fun col => { flag_update r st b.1 b.2 with
          inc_r := (flag_update r st b.1 b.2).inc_r ++ [(b.1, col)] })
    else some (flag_update r st b.1 b.2)
  else some st

/-- The alignment loop: `sub_step` over the aligned pairs in order,
aborting on `KeyError`. -/
def sub_loop (r : BamRead) : List (Nat × Char) → SubLoopState → Option SubLoopState
  | [], st => some st
  | b :: rest, st => (sub_step r st b).bind (fun st1 => sub_loop r rest st1)

/-- The flag update never touches the increment lists. -/
theorem flag_update_inc_f (r : BamRead) (st : SubLoopState) (q : Nat) (rb : Char) :
    (flag_update r st q rb).inc_f = st.inc_f := by
  unfold flag_update
  split <;> rfl

/-- The flag update never touches the increment lists. -/
theorem flag_update_inc_r (r : BamRead) (st : SubLoopState) (q : Nat) (rb : Char) :
    (flag_update r st q rb).inc_r = st.inc_r := by
  unfold flag_update
  split <;> rfl

/-- Updating an already-raised flag changes nothing. -/
theorem flag_update_flagged (r : BamRead) (st : SubLoopState) (q : Nat) (rb : Char)
    (hflag : st.has_indels = true) : flag_update r st q rb = st := by
  obtain ⟨h, f, g⟩ := st
  subst hflag
  unfold flag_update
  split <;> rfl

/-- Once the indel flag is raised, a step changes nothing: no cell is
incremented any more. -/
theorem sub_step_flagged (r : BamRead) (st : SubLoopState) (b : Nat × Char)
    (hflag : st.has_indels = true) : sub_step r st b = some st := by
  unfold sub_step
  rw [flag_update_flagged r st b.1 b.2 hflag, hflag]
  simp

/-- Once the indel flag is raised, the remainder of the loop is inert. -/
theorem sub_loop_flagged (r : BamRead) (l : List (Nat × Char)) (st : SubLoopState)
    (hflag : st.has_indels = true) : sub_loop r l st = some st := by
  induction l with
  | nil => rfl
  | cons b rest ih =>
    rw [sub_loop, sub_step_flagged r st b hflag, Option.some_bind]
    exact ih

/-- Any cell a step adds carries the query position of the processed
aligned pair. -/
theorem sub_step_inc (r : BamRead) (st st' : SubLoopState) (b : Nat × Char)
    (h : sub_step r st b = some st') :
    (∀ qc ∈ st'.inc_f, qc ∈ st.inc_f ∨ qc.1 = b.1) ∧
    (∀ qc ∈ st'.inc_r, qc ∈ st.inc_r ∨ qc.1 = b.1) := by
  unfold sub_step at h
  split at h
  · split at h
    · rcases Option.map_eq_some'.mp h with ⟨col, -, rfl⟩
      constructor
      · intro qc hqc
        have hqc' : qc ∈ st.inc_f ++ [(b.1, col)] := by
          rw [← flag_update_inc_f r st b.1 b.2]
          exact hqc
        rcases List.mem_append.mp hqc' with hin | hone
        · exact Or.inl hin
        · rcases List.mem_singleton.mp hone with rfl
          exact Or.inr rfl
      · intro qc hqc
        left
        rw [← flag_update_inc_r r st b.1 b.2]
        exact hqc
    · split at h
      · rcases Option.map_eq_some'.mp h with ⟨col, -, rfl⟩
        constructor
        · intro qc hqc
          left
          rw [← flag_update_inc_f r st b.1 b.2]
          exact hqc
        · intro qc hqc
          have hqc' : qc ∈ st.inc_r ++ [(b.1, col)] := by
            rw [← flag_update_inc_r r st b.1 b.2]
            exact hqc
          rcases List.mem_append.mp hqc' with hin | hone
          · exact Or.inl hin
          · rcases List.mem_singleton.mp hone with rfl
            exact Or.inr rfl
      · cases h
        constructor
        · intro qc hqc
          left
          rw [← flag_update_inc_f r st b.1 b.2]
          exact hqc
        · intro qc hqc
          left
          rw [← flag_update_inc_r r st b.1 b.2]
          exact hqc
  · cases h
    exact ⟨fun qc hqc => Or.inl hqc, fun qc hqc => Or.inl hqc⟩

/-- Any cell the loop adds carries the query position of one of the
processed aligned pairs. -/
theorem sub_loop_inc_sources (r : BamRead) (l : List (Nat × Char)) :
    ∀ st st' : SubLoopState, sub_loop r l st = some st' →
      (∀ qc ∈ st'.inc_f, qc ∈ st.inc_f ∨ qc.1 ∈ l.map Prod.fst) ∧
      (∀ qc ∈ st'.inc_r, qc ∈ st.inc_r ∨ qc.1 ∈ l.map Prod.fst) := by
  induction l with
  | nil =>
    intro st st' h
    cases h
    exact ⟨fun qc hqc => Or.inl hqc, fun qc hqc => Or.inl hqc⟩
  | cons b rest ih =>
    intro st st' h
    rw [sub_loop] at h
    cases hstep : sub_step r st b with
    | none => rw [hstep, Option.none_bind] at h; cases h
    | some st1 =>
      rw [hstep, Option.some_bind] at h
      obtain ⟨hf, hr⟩ := ih st1 st' h
      obtain ⟨sf, sr⟩ := sub_step_inc r st st1 b hstep
      constructor
      · intro qc hqc
        rcases hf qc hqc with hin1 | hinrest
        · rcases sf qc hin1 with hin0 | heq
          · exact Or.inl hin0
          · exact Or.inr (by rw [List.map_cons]; exact List.mem_cons.mpr (Or.inl heq))
        · exact Or.inr (by rw [List.map_cons]; exact List.mem_cons.mpr (Or.inr hinrest))
      · intro qc hqc
        rcases hr qc hqc with hin1 | hinrest
        · rcases sr qc hin1 with hin0 | heq
          · exact Or.inl hin0
          · exact Or.inr (by rw [List.map_cons]; exact List.mem_cons.mpr (Or.inl heq))
        · exact Or.inr (by rw [List.map_cons]; exact List.mem_cons.mpr (Or.inr hinrest))

/-- The loop splits over list concatenation. -/
theorem sub_loop_append (r : BamRead) (l1 l2 : List (Nat × Char)) :
    ∀ st, sub_loop r (l1 ++ l2) st =
      (sub_loop r l1 st).bind (fun st1 => sub_loop r l2 st1) := by
  induction l1 with
  | nil => intro st; simp only [List.nil_append, sub_loop, Option.some_bind]
  | cons b rest ih =>
    intro st
    cases hstep : sub_step r st b with
    | none => simp [sub_loop, hstep]
    | some st1 => simp [sub_loop, hstep, ih st1]

/-- A step on an aligned pair satisfying the indel condition raises the
flag and increments nothing. -/
theorem sub_step_trigger (r : BamRead) (st : SubLoopState) (p : Nat) (rb : Char)
    (hN : r.seq.getD p ('N') ≠ ('N'))
    (hdiff : (r.seq.getD p ('N')).toLower ≠ rb.toLower)
    (hupper : rb.isUpper = true) :
    sub_step r st (p, rb) = some { st with has_indels := true } := by
  have hcond : (((r.seq.getD p ('N')).toLower != rb.toLower) && rb.isUpper) = true := by
    rw [Bool.and_eq_true, bne_iff_ne]
    exact ⟨hdiff, hupper⟩
  have hflag : flag_update r st p rb = { st with has_indels := true } := by
    unfold flag_update
    rw [if_pos hcond]
  unfold sub_step
  rw [if_pos (bne_iff_ne.mpr hN), hflag]
  simp

/-- C3: once the alignment loop of `get_mismatches` meets an aligned
pair that raises the indel flag at query position `p`, the final state
contains no substitution/match increment at any query position ≥ `p`:
every recorded cell lies strictly before `p`.  The hypotheses say that
the aligned pairs come in strictly increasing query-position order (as
`get_aligned_pairs` yields them), that the pair `(p, rb)` is among them
and satisfies the flag condition (non-`N` query base differing
case-insensitively from an upper-case reference base), and that the
loop ran to completion. -/
theorem c3_substitution_suppressed_after_indel
    (r : BamRead) (p : Nat) (rb : Char) (st : SubLoopState)
    (hmono : (r.aligned_pairs.map Prod.fst).Pairwise (· < ·))
    (hmem : (p, rb) ∈ r.aligned_pairs)
    (hN : r.seq.getD p ('N') ≠ ('N'))
    (hdiff : (r.seq.getD p ('N')).toLower ≠ rb.toLower)
    (hupper : rb.isUpper = true)
    (hrun : sub_loop r r.aligned_pairs ⟨false, [], []⟩ = some st) :
    ∀ qc ∈ st.inc_f ++ st.inc_r, qc.1 < p := by
  rcases List.append_of_mem hmem with ⟨l1, l2, hsplit⟩
  rw [hsplit] at hrun hmono
  rw [sub_loop_append] at hrun
  cases h1 : sub_loop r l1 ⟨false, [], []⟩ with
  | none => rw [h1, Option.none_bind] at hrun; cases hrun
  | some stm =>
    rw [h1, Option.some_bind, sub_loop,
      sub_step_trigger r stm p rb hN hdiff hupper, Option.some_bind,
      sub_loop_flagged r l2 _ rfl] at hrun
    cases hrun
    obtain ⟨hf, hr⟩ := sub_loop_inc_sources r l1 ⟨false, [], []⟩ stm h1
    intro qc hqc
    have hsrc : qc.1 ∈ l1.map Prod.fst := by
      rcases List.mem_append.mp hqc with hfm | hrm
      · rcases hf qc hfm with hnil | hin
        · cases hnil
        · exact hin
      · rcases hr qc hrm with hnil | hin
        · cases hnil
        · exact hin
    rw [List.map_append, List.map_cons] at hmono
    obtain ⟨-, -, hcross⟩ := List.pairwise_append.mp hmono
    exact hcross qc.1 hsrc p (List.mem_cons_self p _)

/-- A first-mate read of 16 `A`s whose aligned pairs are: a match at
query position 0, an indel-flagging pair at query position 10
(upper-case reference `T` differing from the query `A`) and a
substitution pair at query position 15 (lower-case reference `c`). -/
def read_c3 : BamRead :=
  ⟨false, true, false, false, 0, [],
   [('A'), ('A'), ('A'), ('A'), ('A'), ('A'), ('A'), ('A'),
    ('A'), ('A'), ('A'), ('A'), ('A'), ('A'), ('A'), ('A')],
   [(0, ('A')), (10, ('T')), (15, ('c'))], []⟩

/-- Witness for C3: on `read_c3` the loop records only the match at
query position 0; the substitution at query position 15 after the indel
at 10 is suppressed, and the theorem applies with `p = 10`. -/
theorem c3_witness :
    sub_loop read_c3 read_c3.aligned_pairs ⟨false, [], []⟩ = some ⟨true, [(0, 0)], []⟩ ∧
    ((0, 0) : Nat × Nat).1 < 10 :=
  ⟨by decide,
   c3_substitution_suppressed_after_indel read_c3 10 ('T') ⟨true, [(0, 0)], []⟩
     (by decide) (by decide) (by decide) (by decide) (by decide) (by decide)
     (0, 0) (by decide)⟩

/-- The per-read quality sequences of the qualifying forward reads of
`quality_distribution` (src/iss/bam.py lines 190-192): mapped
first-mate reads, in order. -/
def quals_f (reads : List BamRead) : List (List ℚ) :=
  (reads.filter (fun r => !r.is_unmapped && r.is_read1)).map
    (fun r => r.query_qualities)

/-- The per-read quality sequences of the qualifying reverse reads
(src/iss/bam.py lines 201-203): mapped second-mate reads, in order. -/
def quals_r (reads : List BamRead) : List (List ℚ) :=
  (reads.filter (fun r => !r.is_unmapped && r.is_read2)).map
    (fun r => r.query_qualities)

/-- Helper for `pyzip`: zips the first sequence against the remaining
ones, stopping as soon as any sequence runs out. -/
def pyzipAux [Inhabited α] : List α → List (List α) → List (List α)
  | [], _ => []
  | a :: as, rest =>
    if rest.any (fun l => l.isEmpty) then []
    else (a :: rest.map (fun l => l.headD default)) ::
      pyzipAux as (rest.map (fun l => l.tail))

/-- Python `zip(*ls)`: the transpose truncated at the shortest
sequence; `zip()` of no sequences is empty. -/
def pyzip [Inhabited α] : List (List α) → List (List α)
  | [] => []
  | l :: rest => pyzipAux l rest

/-- Minimum of a list of naturals, 0 for the empty list. -/
def listMin : List Nat → Nat
  | [] => 0
  | n :: rest => rest.foldl Nat.min n

/-- A left fold by `Nat.min` is bounded by its starting value. -/
theorem foldl_min_le_init (xs : List Nat) : ∀ a, xs.foldl Nat.min a ≤ a := by
  induction xs with
  | nil => intro a; exact Nat.le_refl a
  | cons x t ih =>
    intro a
    exact Nat.le_trans (ih (Nat.min a x)) (Nat.min_le_left a x)

/-- A left fold by `Nat.min` is bounded by every listed value. -/
theorem foldl_min_le_mem (xs : List Nat) : ∀ a, ∀ x ∈ xs, xs.foldl Nat.min a ≤ x := by
  induction xs with
  | nil => intro a x hx; cases hx
  | cons y t ih =>
    intro a x hx
    rcases List.mem_cons.mp hx with rfl | hx'
    · exact Nat.le_trans (foldl_min_le_init t (Nat.min a x)) (Nat.min_le_right a x)
    · exact ih (Nat.min a y) x hx'

/-- A lower bound of the start and of every listed value bounds the
fold. -/
theorem le_foldl_min (xs : List Nat) :
    ∀ a c, c ≤ a → (∀ x ∈ xs, c ≤ x) → c ≤ xs.foldl Nat.min a := by
  induction xs with
  | nil => intro a c h _; exact h
  | cons y t ih =>
    intro a c h hall
    exact ih (Nat.min a y) c
      (Nat.le_min.mpr ⟨h, hall y (List.mem_cons_self y t)⟩)
      (fun x hx => hall x (List.mem_cons_of_mem y hx))

/-- Folding `Nat.min` commutes with subtracting 1 everywhere. -/
theorem foldl_min_pred (xs : List Nat) :
    ∀ a, (xs.map (fun n => n - 1)).foldl Nat.min (a - 1) = xs.foldl Nat.min a - 1 := by
  induction xs with
  | nil => intro a; rfl
  | cons y t ih =>
    intro a
    have hmin : Nat.min (a - 1) (y - 1) = Nat.min a y - 1 :=
      Nat.sub_min_sub_right a y 1
    rw [List.map_cons, List.foldl_cons, List.foldl_cons, hmin]
    exact ih (Nat.min a y)

/-- `listMin` is a lower bound of its list. -/
theorem listMin_le (l : List Nat) (x : Nat) (hx : x ∈ l) : listMin l ≤ x := by
  cases l with
  | nil => cases hx
  | cons n rest =>
    rcases List.mem_cons.mp hx with rfl | hx'
    · exact foldl_min_le_init rest x
    · exact foldl_min_le_mem rest n x hx'

/-- Any common lower bound of a non-empty list bounds `listMin`. -/
theorem le_listMin (l : List Nat) (c : Nat) (h : ∀ x ∈ l, c ≤ x) (hne : l ≠ []) :
    c ≤ listMin l := by
  cases l with
  | nil => cases hne rfl
  | cons n rest =>
    exact le_foldl_min rest n c (h n (List.mem_cons_self n rest))
      (fun x hx => h x (List.mem_cons_of_mem n hx))

/-- `listMin` commutes with subtracting 1 everywhere. -/
theorem listMin_pred (l : List Nat) :
    listMin (l.map (fun n => n - 1)) = listMin l - 1 := by
  cases l with
  | nil => rfl
  | cons n rest =>
    simp only [List.map_cons, listMin]
    exact foldl_min_pred rest n

/-- The number of rows `pyzipAux` produces is the minimum sequence
length. -/
theorem pyzipAux_length [Inhabited α] (l : List α) :
    ∀ rest : List (List α),
      (pyzipAux l rest).length =
        listMin (l.length :: rest.map (fun x => x.length)) := by
  induction l with
  | nil =>
    intro rest
    have h := foldl_min_le_init (rest.map (fun x => x.length)) 0
    simp only [pyzipAux, List.length_nil, listMin]
    omega
  | cons a as ih =>
    intro rest
    by_cases hemp : rest.any (fun x => x.isEmpty) = true
    · rcases List.any_eq_true.mp hemp with ⟨x, hxmem, hxemp⟩
      have h0 : (0 : Nat) ∈ rest.map (fun x => x.length) :=
        List.mem_map.mpr ⟨x, hxmem, by rw [List.isEmpty_iff.mp hxemp]; rfl⟩
      have hle := listMin_le ((a :: as).length :: rest.map (fun x => x.length)) 0
        (List.mem_cons_of_mem _ h0)
      simp only [pyzipAux, if_pos hemp, List.length_nil]
      omega
    · have hmap : (rest.map (fun l => l.tail)).map (fun x => x.length)
          = (rest.map (fun x => x.length)).map (fun n => n - 1) := by
        rw [List.map_map, List.map_map]
        exact List.map_congr_left (fun x _ => List.length_tail x)
      have h1 : 1 ≤ listMin ((a :: as).length :: rest.map (fun x => x.length)) := by
        refine le_listMin _ 1 ?_ (List.cons_ne_nil _ _)
        intro x hx
        rcases List.mem_cons.mp hx with rfl | hx'
        · exact Nat.succ_le_succ (Nat.zero_le _)
        · rcases List.mem_map.mp hx' with ⟨ll, hll, rfl⟩
          cases hc : ll with
          | nil =>
            exact absurd (List.any_eq_true.mpr ⟨ll, hll, by rw [hc]; rfl⟩) hemp
          | cons _ _ => exact Nat.succ_le_succ (Nat.zero_le _)
      have hstep : (pyzipAux (a :: as) rest).length
          = (pyzipAux as (rest.map (fun l => l.tail))).length + 1 := by
        simp only [pyzipAux, if_neg hemp, List.length_cons]
      rw [hstep, ih (rest.map (fun l => l.tail)), hmap,
        show (as.length : Nat) = (a :: as).length - 1 from rfl,
        show ((a :: as).length - 1) :: (rest.map (fun x => x.length)).map (fun n => n - 1)
          = (((a :: as).length :: rest.map (fun x => x.length)).map (fun n => n - 1))
          from rfl,
        listMin_pred]
      omega

/-- The number of rows `pyzip` produces for a non-empty family is the
minimum sequence length. -/
theorem pyzip_length [Inhabited α] (ls : List (List α)) (h : ls ≠ []) :
    (pyzip ls).length = listMin (ls.map (fun x => x.length)) := by
  cases ls with
  | nil => cases h rfl
  | cons l rest =>
    simp only [pyzip, List.map_cons, listMin]
    have := pyzipAux_length l rest
    simp only [listMin] at this
    exact this

/-- `np.std(x, ddof=1)` squared, i.e. the unbiased sample variance
(src/iss/bam.py line 229 computes its square root); `none` models the
NaN numpy returns for fewer than 2 samples (0/0 degrees of freedom). -/
def np_var_ddof1 (x : List ℚ) : Option ℚ :=
  if x.length < 2 then none
  else some ((x.map (fun v => (v - x.sum / (x.length : ℚ)) ^ 2)).sum /
    ((x.length : ℚ) - 1))

/-- The square of `bw_method = 0.2 / np.std(x, ddof=1)` (src/iss/bam.py
line 229).  The square is recorded because it is exactly representable
over ℚ: `(0.2 / std)² = 0.04 / var`.  `none` models the non-finite
float outcomes: NaN when the standard deviation is NaN (fewer than 2
samples) and Inf when it is zero (zero variance). -/
def kde_bw_sq (x : List ℚ) : Option ℚ :=
  match np_var_ddof1 x with
  | none => none
  | some v => if v = 0 then none else some ((1 / 25) / v)

/-- What the repository passes to the external `stats.gaussian_kde` for
one position: the per-position score sample and the bandwidth (squared;
`none` for a non-finite bandwidth).  The density evaluation, cumulative
sum and normalisation are the external library's work on this input. -/
structure KdeFit where
  sample : List ℚ
  bw_sq : Option ℚ
deriving DecidableEq

/-- The kde branch of `quality_distribution` (src/iss/bam.py lines
196-197, 207-208 and 224-240): per mate orientation, zip the qualifying
reads' quality sequences into per-position samples and fit a KDE per
position with bandwidth `0.2 / np.std(x, ddof=1)`, unconditionally. -/
def quality_distribution_kde (reads : List BamRead) :
    List KdeFit × List KdeFit :=
  ((pyzip (quals_f reads)).map (fun x => ⟨x, kde_bw_sq x⟩),
   (pyzip (quals_r reads)).map (fun x => ⟨x, kde_bw_sq x⟩))

/-- `np.histogram(x, bins=range(0, 41))`: 40 bins, the first 39 of them
half-open and the last closed. -/
def np_histogram40 (x : List ℚ) : List ℚ :=
  (List.range 40).map (fun b =>
    ((x.filter (fun v => decide ((b : ℚ) ≤ v) &&
      (if b == 39 then decide (v ≤ (b : ℚ) + 1)
       else decide (v < (b : ℚ) + 1)))).length : ℚ))

/-- The cdf branch of `quality_distribution` (src/iss/bam.py lines
193-195, 204-206 and 211-222): per mate orientation, one normalised
histogram per zipped position. -/
def quality_distribution_cdf (reads : List BamRead) :
    List (List (Option ℚ)) × List (List (Option ℚ)) :=
  ((pyzip (quals_f reads)).map (fun x =>
      (np_histogram40 x).map (fun c => pydiv c (np_histogram40 x).sum)),
   (pyzip (quals_r reads)).map (fun x =>
      (np_histogram40 x).map (fun c => pydiv c (np_histogram40 x).sum)))

/-- A mapped first-mate read carrying the given quality scores. -/
def qread1 (q : List ℚ) : BamRead :=
  ⟨false, true, false, false, 0, q, [], [], []⟩

/-- A mapped second-mate read carrying the given quality scores. -/
def qread2 (q : List ℚ) : BamRead :=
  ⟨false, false, true, false, 0, q, [], [], []⟩

/-- Two forward reads whose position-0 scores coincide (zero variance)
and one lone reverse read (sample of size 1). -/
def reads_c8 : List BamRead :=
  [qread1 [30, 31], qread1 [30, 35], qread2 [20]]

/-- C8 counterexample: the claim states that `quality_distribution`
detects a degenerate bandwidth (sample of fewer than 2 scores, or zero
variance) and falls back or raises, rather than silently computing with
a NaN/Inf bandwidth.  The code refutes this: the forward position-0
sample `[30, 30]` has zero variance and the reverse position-0 sample
`[20]` has one element, and in both cases the KDE is fitted with the
non-finite bandwidth (`none`) unconditionally, while the healthy sample
`[31, 35]` gets bandwidth² `= 0.04 / 8 = 1/200`. -/
theorem c8_degenerate_bandwidth_silently_passed :
    (quality_distribution_kde reads_c8).1 =
      [⟨[30, 30], none⟩, ⟨[31, 35], some (1 / 200)⟩] ∧
    (quality_distribution_kde reads_c8).2 = [⟨[20], none⟩] := by
  constructor <;>
    norm_num [reads_c8, qread1, qread2, quality_distribution_kde, quals_f,
      quals_r, pyzip, pyzipAux, kde_bw_sq, np_var_ddof1]

/-- C8 (amended): `quality_distribution` performs no degeneracy check at
all: for every position whose score sample has fewer than 2 elements or
zero variance, the bandwidth expression `0.2 / np.std(x, ddof=1)` is
non-finite and is passed to the external KDE fit unchanged; no fallback
distribution is substituted and no error is raised by this function. -/
theorem c8_no_degeneracy_check (reads : List BamRead) (fit : KdeFit)
    (hmem : fit ∈ (quality_distribution_kde reads).1 ∨
      fit ∈ (quality_distribution_kde reads).2)
    (hdeg : fit.sample.length < 2 ∨ np_var_ddof1 fit.sample = some 0) :
    fit.bw_sq = none := by
  have hfit : ∃ x, fit = (⟨x, kde_bw_sq x⟩ : KdeFit) := by
    rcases hmem with hm | hm <;>
    · rcases List.mem_map.mp hm with ⟨x, -, rfl⟩
      exact ⟨x, rfl⟩
  rcases hfit with ⟨x, rfl⟩
  show kde_bw_sq x = none
  rcases hdeg with hlen | hvar
  · unfold kde_bw_sq np_var_ddof1
    rw [if_pos hlen]
  · unfold kde_bw_sq
    rw [hvar]
    simp

/-- Witness for the amended C8: the lone reverse-orientation sample of
`reads_c8` has one element and its recorded bandwidth is non-finite. -/
theorem c8_witness :
    ((quality_distribution_kde reads_c8).2.headD ⟨[], some 0⟩).bw_sq = none :=
  c8_no_degeneracy_check reads_c8 _
    (Or.inr (by
      norm_num [reads_c8, qread1, qread2, quality_distribution_kde, quals_f,
        quals_r, pyzip, pyzipAux, kde_bw_sq, np_var_ddof1]))
    (Or.inl (by
      norm_num [reads_c8, qread1, qread2, quality_distribution_kde, quals_f,
        quals_r, pyzip, pyzipAux, kde_bw_sq, np_var_ddof1]))

/-- C10: in either mode, the number of per-position quality
distributions produced for a mate orientation equals the minimum
quality-sequence length over the qualifying reads of that orientation,
because the per-position samples come from zipping the per-read
sequences, which truncates at the shortest read. -/
theorem c10_num_position_distributions (reads : List BamRead)
    (hf : quals_f reads ≠ []) (hr : quals_r reads ≠ []) :
    (quality_distribution_kde reads).1.length =
      listMin ((quals_f reads).map (fun x => x.length)) ∧
    (quality_distribution_kde reads).2.length =
      listMin ((quals_r reads).map (fun x => x.length)) ∧
    (quality_distribution_cdf reads).1.length =
      listMin ((quals_f reads).map (fun x => x.length)) ∧
    (quality_distribution_cdf reads).2.length =
      listMin ((quals_r reads).map (fun x => x.length)) := by
  refine ⟨?_, ?_, ?_, ?_⟩ <;>
    simp only [quality_distribution_kde, quality_distribution_cdf,
      List.length_map]
  · exact pyzip_length _ hf
  · exact pyzip_length _ hr
  · exact pyzip_length _ hf
  · exact pyzip_length _ hr

/-- Forward reads of quality lengths 3 and 2, one reverse read of
quality length 1. -/
def reads_c10 : List BamRead :=
  [qread1 [1, 2, 3], qread1 [4, 5], qread2 [6]]

/-- Witness for C10: with forward quality lengths 3 and 2 and one
reverse quality length 1, the distribution counts are the minima 2 and
1 respectively. -/
theorem c10_witness :
    ((quality_distribution_kde reads_c10).1.length =
      listMin ((quals_f reads_c10).map (fun x => x.length)) ∧
    (quality_distribution_kde reads_c10).2.length =
      listMin ((quals_r reads_c10).map (fun x => x.length)) ∧
    (quality_distribution_cdf reads_c10).1.length =
      listMin ((quals_f reads_c10).map (fun x => x.length)) ∧
    (quality_distribution_cdf reads_c10).2.length =
      listMin ((quals_r reads_c10).map (fun x => x.length))) ∧
    listMin ((quals_f reads_c10).map (fun x => x.length)) = 2 ∧
    listMin ((quals_r reads_c10).map (fun x => x.length)) = 1 :=
  ⟨c10_num_position_distributions reads_c10 (by decide) (by decide),
   by decide, by decide⟩

end Iss
